import Mathlib

/-!
Verification of the Frame Notes application core against its source.

The definitions below are a shallow embedding of the TypeScript source:
* data model from `src/types.ts`;
* list view filtering and sorting from `src/components/Home.tsx`;
* editor block operations, drag reordering and the auto-save commit from
  the Editor component (`src/unnamed/part_002`);
* drawing canvas stroke commit and path replay from the DrawingCanvas
  component (`src/unnamed/part_002`);
* note collection handlers and JSON persistence from `src/App.tsx`.

JavaScript numbers that occur in the model (timestamps, coordinates,
stroke widths) are integer-valued in every reachable state, so they are
modelled as `Int`.  JavaScript `Array.prototype.sort` is required by
ES2019 to be stable, so it is modelled by `List.mergeSort` over the
comparator-induced boolean order.  `Array.prototype.splice` clamps the
insertion position to the array length, hence the explicit `min` in the
splice model.
-/

namespace FrameNotes

/-! ## Data model (src/types.ts) -/

/-- `Theme` from src/types.ts. -/
inductive Theme where
  | dark
  | pink
  | royal
deriving DecidableEq

/-- `BlockType` from src/types.ts. -/
inductive BlockType where
  | text
  | image
  | video
deriving DecidableEq

/-- `Point` from src/types.ts. -/
structure Point where
  x : Int
  y : Int
deriving DecidableEq

/-- `DrawingPath` from src/types.ts. -/
structure DrawingPath where
  points : List Point
  color : String
  width : Int
deriving DecidableEq

/-- `Block` from src/types.ts; `width`, `height` and `drawings` are
optional fields (`none` models an absent / `undefined` property). -/
structure Block where
  id : String
  type : BlockType
  content : String
  width : Option Int := none
  height : Option Int := none
  drawings : Option (List DrawingPath) := none
deriving DecidableEq

/-- `Note` from src/types.ts; `isHidden` and `theme` are optional. -/
structure Note where
  id : String
  title : String
  createdAt : Int
  updatedAt : Int
  blocks : List Block
  isPinned : Bool
  isHidden : Option Bool := none
  theme : Option Theme := none
deriving DecidableEq

/-- JavaScript truthiness of the optional boolean `isHidden` field:
`undefined` is falsy, `some b` has truth value `b`. -/
def truthy (o : Option Bool) : Bool :=
  o.getD false

/-! ## Editor block operations (Editor component, src/unnamed/part_002)

The editor's block-related state is the block list together with the
one-slot delete-undo buffer `deletedBlock` and the transient drag source
index `dragItem` (a React ref).  The timers (undo expiry, autosave
debounce) are real-time concerns and are not part of the state
transition functions modelled here. -/

/-- The part of the Editor component state that the block operations
read and write: `blocks`, the one-slot undo buffer `deletedBlock`
(removed block together with its original index), and the drag refs
`dragItem` / `dragOverItem`. -/
structure EditorState where
  blocks : List Block
  deletedBlock : Option (Block × Nat) := none
  dragItem : Option Nat := none
  dragOverItem : Option Nat := none
deriving DecidableEq

/-- `updateBlock` from the Editor: replace the content of the block with
the given id (every block whose id differs is returned unchanged). -/
def updateBlock (st : EditorState) (id : String) (content : String) : EditorState :=
  { st with blocks := st.blocks.map fun b => if b.id == id then { b with content := content } else b }

/-- `updateBlockDrawings` from the Editor: replace the drawing list of
the block with the given id. -/
def updateBlockDrawings (st : EditorState) (id : String) (drawings : List DrawingPath) :
    EditorState :=
  { st with blocks := st.blocks.map fun b => if b.id == id then { b with drawings := some drawings } else b }

/-- `deleteBlock` from the Editor: find the first index whose block has
the given id; if there is none, return (no-op).  Otherwise record the
block at that index together with the index in the undo buffer and
remove every block with that id (`blocks.filter(b => b.id !== id)`).
`st.blocks[index]?` is `some` whenever `findIdx?` succeeds, so the
`Option.map` totalisation never loses information. -/
def deleteBlock (st : EditorState) (id : String) : EditorState :=
  match st.blocks.findIdx? (fun b => b.id == id) with
  | none => st
  | some index =>
      { st with
        blocks := st.blocks.filter fun b => !(b.id == id)
        deletedBlock := (st.blocks[index]?).map fun b => (b, index) }

/-- `Array.prototype.splice(pos, 0, a)`: the insertion position is
clamped to the list length. -/
def spliceInsert (l : List Block) (pos : Nat) (a : Block) : List Block :=
  l.insertIdx (min pos l.length) a

/-- `restoreBlock` from the Editor: if the undo buffer is filled,
splice the recorded block back in at the recorded index and clear the
buffer; otherwise do nothing. -/
def restoreBlock (st : EditorState) : EditorState :=
  match st.deletedBlock with
  | none => st
  | some (b, index) =>
      { st with blocks := spliceInsert st.blocks index b, deletedBlock := none }

/-- The splice-out / splice-in move performed by `handleDragEnter`:
`newBlocks.splice(dragIndex, 1)` followed by
`newBlocks.splice(hoverIndex, 0, draggedBlock)`.  For an in-range
`dragIndex` the element at that index is moved; an out-of-range
`dragIndex` removes nothing and is modelled as the identity. -/
def spliceMove (l : List Block) (dragIndex hoverIndex : Nat) : List Block :=
  match l[dragIndex]? with
  | none => l
  | some dragged => spliceInsert (l.eraseIdx dragIndex) hoverIndex dragged

/-- `handleDragStart` from the Editor: record the source position in the
`dragItem` ref. -/
def handleDragStart (st : EditorState) (position : Nat) : EditorState :=
  { st with dragItem := some position }

/-- `handleDragEnter` from the Editor: ignore the event when no drag is
tracked; otherwise record the hover position, and when it differs from
the tracked source index, move the dragged block there immediately and
re-track the source at the hover position. -/
def handleDragEnter (st : EditorState) (position : Nat) : EditorState :=
  match st.dragItem with
  | none => st
  | some dragIndex =>
      let st := { st with dragOverItem := some position }
      if dragIndex = position then st
      else
        { st with
          blocks := spliceMove st.blocks dragIndex position
          dragItem := some position }

/-- `handleDragEnd` from the Editor: clear both drag refs. -/
def handleDragEnd (st : EditorState) : EditorState :=
  { st with dragItem := none, dragOverItem := none }

/-- A whole drag gesture as the claim describes it: a drag-start at
`i` followed by one drag-enter per element of `targets`. -/
def runDrag (st : EditorState) (i : Nat) (targets : List Nat) : EditorState :=
  targets.foldl handleDragEnter (handleDragStart st i)

/-- The spec's description of the same gesture (spec section 4.2 and
section 8 "Drag-reorder"): a left fold of pure splice-remove /
splice-insert moves over the target sequence, each move updating the
tracked source index to its target. -/
def specDragFold (blocks : List Block) (i : Nat) (targets : List Nat) : List Block × Nat :=
  targets.foldl
    (fun st t => if st.2 = t then st else (spliceMove st.1 st.2 t, t))
    (blocks, i)

/-! ## Drawing canvas (DrawingCanvas component, src/unnamed/part_002) -/

/-- The drawing tool selection. -/
inductive Tool where
  | pen
  | eraser
deriving DecidableEq

/-- The DrawingCanvas component state read and written by the stroke
commit logic: committed paths, the drawing-in-progress flag, the
in-progress point buffer, and the current tool settings. -/
structure CanvasState where
  paths : List DrawingPath
  isDrawing : Bool
  currentPoints : List Point
  selectedColor : String
  tool : Tool
  brushSize : Int
deriving DecidableEq

/-- `stopDrawing` from DrawingCanvas: a no-op when no stroke is in
progress; otherwise end the stroke, append a new path when the point
buffer holds more than one point (color is the selected color for the
pen, the sentinel string for the eraser; width is the brush size), and
reset the point buffer. -/
def stopDrawing (st : CanvasState) : CanvasState :=
  if !st.isDrawing then st
  else
    let st := { st with isDrawing := false }
    let st :=
      if st.currentPoints.length > 1 then
        { st with
          paths := st.paths ++
            [{ points := st.currentPoints
               color := if st.tool == Tool.eraser then "eraser" else st.selectedColor
               width := st.brushSize }] }
      else st
    { st with currentPoints := [] }

/-- One step of `renderCanvas` from DrawingCanvas, on an abstract pixel
model.  The canvas is a map from pixels to the color last painted there
(`none` = transparent); `covers` abstracts stroke rasterisation (which
pixels a path's stroked polyline touches).  A path with fewer than two
points is skipped; an eraser-sentinel path clears the pixels it covers
(`destination-out`); any other path paints its color over the pixels it
covers (`source-over`). -/
def paintStep {Pixel : Type} (covers : DrawingPath → Pixel → Bool)
    (canvas : Pixel → Option String) (path : DrawingPath) : Pixel → Option String :=
  fun px =>
    if path.points.length < 2 then canvas px
    else if path.color == "eraser" then
      if covers path px then none else canvas px
    else
      if covers path px then some path.color else canvas px

/-- `renderCanvas` from DrawingCanvas on the abstract pixel model:
clear the bitmap, then replay the paths strictly in list order. -/
def renderCanvas {Pixel : Type} (covers : DrawingPath → Pixel → Bool)
    (paths : List DrawingPath) : Pixel → Option String :=
  paths.foldl (paintStep covers) (fun _ => none)

/-! ## Auto-save commit (Editor component, src/unnamed/part_002) -/

/-- The body of the Editor auto-save effect once the debounce timer
fires.  `note` is the note the editor was opened with (`none` for a new
note); `title`, `blocks`, `isPinned`, `isHidden` are the editor state;
`now` models `Date.now()` and `freshId` the value `generateId()` would
return.  Returns `none` when the empty-new-note guard skips the save.
The `||` defaults of the source are modelled by their JavaScript
falsiness semantics: an empty string and the number 0 are falsy. -/
def autoSaveCommit (note : Option Note) (title : String) (blocks : List Block)
    (isPinned isHidden : Bool) (currentTheme : Theme) (now : Int) (freshId : String) :
    Option Note :=
  if blocks.length = 0 && title == "" && note.isNone then none
  else some
    { id := match note with
        | some n => if n.id = "" then freshId else n.id
        | none => freshId
      title := if title = "" then "" else title
      createdAt := match note with
        | some n => if n.createdAt = 0 then now else n.createdAt
        | none => now
      updatedAt := now
      blocks := blocks
      isPinned := isPinned
      isHidden := some isHidden
      theme := some currentTheme }

/-! ## Note collection handlers (src/App.tsx) -/

/-- The part of the App component state that the note handlers read and
write: the collection and the one-slot note-delete undo buffer. -/
structure AppState where
  notes : List Note
  deletedNote : Option Note := none
deriving DecidableEq

/-- `handleSaveNote` from src/App.tsx: if a note with the saved note's
id exists, map the collection replacing every note with that id by the
saved note; otherwise prepend the saved note. -/
def handleSaveNote (prev : List Note) (updatedNote : Note) : List Note :=
  match prev.find? (fun n => n.id == updatedNote.id) with
  | some _ => prev.map fun n => if n.id == updatedNote.id then updatedNote else n
  | none => updatedNote :: prev

/-- `handleDeleteNote` from src/App.tsx: a no-op when no note has the
given id; otherwise record the found note in the undo buffer and filter
it out of the collection. -/
def handleDeleteNote (st : AppState) (noteId : String) : AppState :=
  match st.notes.find? (fun n => n.id == noteId) with
  | none => st
  | some noteToDelete =>
      { notes := st.notes.filter fun n => !(n.id == noteId)
        deletedNote := some noteToDelete }

/-! ## List view: filter and sort (src/components/Home.tsx) -/

/-- JavaScript `hay.includes(needle)` on strings: substring test
(the needle's character list is an infix of the hay's). -/
def strIncludes (hay needle : String) : Bool :=
  decide (needle.data <:+: hay.data)

/-- The predicate of `notes.filter(...)` in Home: the note's hidden
flag must match the view mode (`showHidden ? n.isHidden : !n.isHidden`,
with an absent flag falsy), and when the trimmed query is nonempty the
lowercased query must occur in the lowercased title or in the
lowercased content of some text block. -/
def homeFilterPred (showHidden : Bool) (searchQuery : String) (n : Note) : Bool :=
  let matchesVisibility := if showHidden then truthy n.isHidden else !(truthy n.isHidden)
  let matchesSearch :=
    if searchQuery.trim == "" then true
    else
      let query := searchQuery.toLower
      strIncludes n.title.toLower query ||
        n.blocks.any fun b => b.type == BlockType.text && strIncludes b.content.toLower query
  matchesVisibility && matchesSearch

/-- `filteredNotes` from Home. -/
def filteredNotes (notes : List Note) (showHidden : Bool) (searchQuery : String) : List Note :=
  notes.filter (homeFilterPred showHidden searchQuery)

/-- The comparator passed to `.sort` in Home, as a JavaScript-style
three-way comparator. -/
def noteCmp (a b : Note) : Int :=
  if a.isPinned != b.isPinned then (if a.isPinned then -1 else 1)
  else b.updatedAt - a.updatedAt

/-- The boolean order induced by the comparator: `a` may stay before
`b` exactly when the comparator does not demand the opposite order. -/
def noteLE (a b : Note) : Bool :=
  noteCmp a b ≤ 0

/-- `sortedNotes` from Home: a stable sort of the filtered list by the
comparator (ES2019 requires `Array.prototype.sort` to be stable). -/
def sortNotes (l : List Note) : List Note :=
  l.mergeSort noteLE

/-- `sortedNotes` from Home applied to the filtered view. -/
def sortedNotes (notes : List Note) (showHidden : Bool) (searchQuery : String) : List Note :=
  sortNotes (filteredNotes notes showHidden searchQuery)

/-! ## JSON persistence (src/App.tsx)

Saving writes `JSON.stringify(notes)` and loading reads it back with
`JSON.parse`.  Both are ECMA-262 built-ins; they are modelled at the
level of the JSON document tree: `encodeNotes` is the tree
`JSON.stringify` serialises for a note collection (own properties in
insertion order, properties whose value is `undefined` omitted), and
`decodeNotes` reads a parsed tree back as a `Note` collection (the
loaded value is used directly as `Note[]`, so reading off the fields is
exactly the shape the rest of the program observes).  The concrete
text layer is a bijection between trees and their canonical strings and
is not re-modelled. -/

/-- A JSON document tree. -/
inductive Json where
  | null : Json
  | bool : Bool → Json
  | num : Int → Json
  | str : String → Json
  | arr : List Json → Json
  | obj : List (String × Json) → Json

/-- The serialised name of a `BlockType`. -/
def blockTypeStr : BlockType → String
  | BlockType.text => "text"
  | BlockType.image => "image"
  | BlockType.video => "video"

/-- The serialised name of a `Theme`. -/
def themeStr : Theme → String
  | Theme.dark => "dark"
  | Theme.pink => "pink"
  | Theme.royal => "royal"

/-- An optional object property: omitted when the value is absent. -/
def optField (k : String) : Option Json → List (String × Json)
  | none => []
  | some j => [(k, j)]

/-- `JSON.stringify` tree of a `Point`. -/
def encodePoint (p : Point) : Json :=
  Json.obj [("x", Json.num p.x), ("y", Json.num p.y)]

/-- `JSON.stringify` tree of a `DrawingPath`. -/
def encodePath (p : DrawingPath) : Json :=
  Json.obj
    [("points", Json.arr (p.points.map encodePoint)),
     ("color", Json.str p.color),
     ("width", Json.num p.width)]

/-- `JSON.stringify` tree of a `Block`. -/
def encodeBlock (b : Block) : Json :=
  Json.obj
    ([("id", Json.str b.id),
      ("type", Json.str (blockTypeStr b.type)),
      ("content", Json.str b.content)]
      ++ optField "width" (b.width.map Json.num)
      ++ optField "height" (b.height.map Json.num)
      ++ optField "drawings" (b.drawings.map fun ds => Json.arr (ds.map encodePath)))

/-- `JSON.stringify` tree of a `Note`. -/
def encodeNote (n : Note) : Json :=
  Json.obj
    ([("id", Json.str n.id),
      ("title", Json.str n.title),
      ("createdAt", Json.num n.createdAt),
      ("updatedAt", Json.num n.updatedAt),
      ("blocks", Json.arr (n.blocks.map encodeBlock)),
      ("isPinned", Json.bool n.isPinned)]
      ++ optField "isHidden" (n.isHidden.map Json.bool)
      ++ optField "theme" (n.theme.map fun t => Json.str (themeStr t)))

/-- `JSON.stringify` tree of the persisted collection. -/
def encodeNotes (ns : List Note) : Json :=
  Json.arr (ns.map encodeNote)

/-- Read an integer off a parsed tree. -/
def decNum : Json → Option Int
  | Json.num i => some i
  | _ => none

/-- Read a string off a parsed tree. -/
def decStr : Json → Option String
  | Json.str s => some s
  | _ => none

/-- Read a boolean off a parsed tree. -/
def decBool : Json → Option Bool
  | Json.bool b => some b
  | _ => none

/-- Read a `BlockType` off a parsed tree. -/
def decBlockType (j : Json) : Option BlockType := do
  match (← decStr j) with
  | "text" => some BlockType.text
  | "image" => some BlockType.image
  | "video" => some BlockType.video
  | _ => none

/-- Read a `Theme` off a parsed tree. -/
def decTheme (j : Json) : Option Theme := do
  match (← decStr j) with
  | "dark" => some Theme.dark
  | "pink" => some Theme.pink
  | "royal" => some Theme.royal
  | _ => none

/-- Read a list off parsed trees element by element, failing if any
element fails (the element-wise reading `JSON.parse` induces on an
array). -/
def decodeList {α : Type} (dec : Json → Option α) : List Json → Option (List α)
  | [] => some []
  | j :: js => do
      let a ← dec j
      let t ← decodeList dec js
      some (a :: t)

/-- Look up a required object property and read it. -/
def getField {α : Type} (fields : List (String × Json)) (k : String)
    (read : Json → Option α) : Option α := do
  read (← fields.lookup k)

/-- Look up an optional object property: a missing property is `none`,
a present one must read successfully. -/
def getOptField {α : Type} (fields : List (String × Json)) (k : String)
    (read : Json → Option α) : Option (Option α) :=
  match fields.lookup k with
  | none => some none
  | some j => (read j).map some

/-- Read a `Point` off a parsed tree. -/
def decodePoint : Json → Option Point
  | Json.obj fields => do
      let x ← getField fields "x" decNum
      let y ← getField fields "y" decNum
      some { x := x, y := y }
  | _ => none

/-- Read a `DrawingPath` off a parsed tree. -/
def decodePath : Json → Option DrawingPath
  | Json.obj fields => do
      let points ← getField fields "points" fun j =>
        match j with
        | Json.arr js => decodeList decodePoint js
        | _ => none
      let color ← getField fields "color" decStr
      let width ← getField fields "width" decNum
      some { points := points, color := color, width := width }
  | _ => none

/-- Read a `Block` off a parsed tree. -/
def decodeBlock : Json → Option Block
  | Json.obj fields => do
      let id ← getField fields "id" decStr
      let type ← getField fields "type" decBlockType
      let content ← getField fields "content" decStr
      let width ← getOptField fields "width" decNum
      let height ← getOptField fields "height" decNum
      let drawings ← getOptField fields "drawings" fun j =>
        match j with
        | Json.arr js => decodeList decodePath js
        | _ => none
      some { id := id, type := type, content := content,
             width := width, height := height, drawings := drawings }
  | _ => none

/-- Read a `Note` off a parsed tree. -/
def decodeNote : Json → Option Note
  | Json.obj fields => do
      let id ← getField fields "id" decStr
      let title ← getField fields "title" decStr
      let createdAt ← getField fields "createdAt" decNum
      let updatedAt ← getField fields "updatedAt" decNum
      let blocks ← getField fields "blocks" fun j =>
        match j with
        | Json.arr js => decodeList decodeBlock js
        | _ => none
      let isPinned ← getField fields "isPinned" decBool
      let isHidden ← getOptField fields "isHidden" decBool
      let theme ← getOptField fields "theme" decTheme
      some { id := id, title := title, createdAt := createdAt, updatedAt := updatedAt,
             blocks := blocks, isPinned := isPinned, isHidden := isHidden, theme := theme }
  | _ => none

/-- Read the persisted collection off a parsed tree. -/
def decodeNotes : Json → Option (List Note)
  | Json.arr js => decodeList decodeNote js
  | _ => none

/-- The claim's description of the list-view retention rule, written
from the spec's words for comparison with `homeFilterPred`: the hidden
flag matches the mode (an unset flag counts as non-hidden), and the
query is blank or its lowercase form occurs in the lowercase title or
in the lowercase content of some text-type block. -/
def specKeep (showHidden : Bool) (q : String) (n : Note) : Prop :=
  (if showHidden then n.isHidden = some true else n.isHidden ≠ some true) ∧
  (q.trim = "" ∨ q.toLower.data <:+: n.title.toLower.data ∨
    ∃ b ∈ n.blocks, b.type = BlockType.text ∧ q.toLower.data <:+: b.content.toLower.data)

/-! ## Sample values (used by witness theorems) -/

/-- A sample point. -/
def pt0 : Point := { x := 0, y := 0 }

/-- A sample point. -/
def pt1 : Point := { x := 5, y := 7 }

/-- A sample text block. -/
def sampleBlockA : Block := { id := "a", type := BlockType.text, content := "Paris was great" }

/-- A sample image block. -/
def sampleBlockB : Block := { id := "b", type := BlockType.image, content := "data:image" }

/-- A sample visible note. -/
def sampleNoteA : Note :=
  { id := "n1", title := "Trip", createdAt := 1, updatedAt := 2,
    blocks := [sampleBlockA], isPinned := false }

/-- A sample hidden note. -/
def sampleNoteH : Note :=
  { id := "n2", title := "Secret", createdAt := 1, updatedAt := 3,
    blocks := [], isPinned := false, isHidden := some true }

/-- A sample canvas state with a two-point stroke in progress. -/
def sampleCanvas : CanvasState :=
  { paths := [], isDrawing := true, currentPoints := [pt0, pt1],
    selectedColor := "#22d3ee", tool := Tool.pen, brushSize := 3 }

/-- A sample editor state with two blocks. -/
def sampleEditor : EditorState := { blocks := [sampleBlockA, sampleBlockB] }

/-- A sample app state with two notes. -/
def sampleApp : AppState := { notes := [sampleNoteA, sampleNoteH] }

/-! ## Theorems -/

/-- Mapping a guarded rewrite over a list where the guard never fires
is the identity. -/
theorem map_if_id {α : Type} (l : List α) (p : α → Bool) (f : α → α)
    (h : ∀ a ∈ l, p a = false) :
    (l.map fun a => if p a then f a else a) = l := by
  calc (l.map fun a => if p a then f a else a)
      = l.map (fun a => a) :=
        List.map_congr_left (by intro a ha; rw [h a ha]; simp)
    _ = l := List.map_id' l

/-- Claim C6: on a pointer-up that ends a stroke (`isDrawing` set), a
buffer of at least two points is committed as a new `DrawingPath`
appended at the end of the path list, with the selected color for the
pen or the eraser sentinel for the eraser and the brush size as width;
a buffer of at most one point leaves the path list unchanged; in both
cases the point buffer is reset to empty. -/
theorem stopDrawing_spec (st : CanvasState) (h : st.isDrawing = true) :
    (2 ≤ st.currentPoints.length →
      stopDrawing st = { st with
        isDrawing := false
        currentPoints := []
        paths := st.paths ++
          [{ points := st.currentPoints
             color := if st.tool == Tool.eraser then "eraser" else st.selectedColor
             width := st.brushSize }] })
    ∧ (st.currentPoints.length ≤ 1 →
      stopDrawing st = { st with isDrawing := false, currentPoints := [] }) := by
  constructor
  · intro hl
    simp only [stopDrawing, h, Bool.not_true, Bool.false_eq_true, if_false]
    rw [if_pos (by omega)]
  · intro hl
    simp only [stopDrawing, h, Bool.not_true, Bool.false_eq_true, if_false]
    rw [if_neg (by omega)]

/-- Witness for `stopDrawing_spec` at a concrete canvas state. -/
theorem stopDrawing_spec_witness :
    stopDrawing sampleCanvas = { sampleCanvas with
      isDrawing := false
      currentPoints := []
      paths := sampleCanvas.paths ++
        [{ points := sampleCanvas.currentPoints
           color := if sampleCanvas.tool == Tool.eraser then "eraser" else sampleCanvas.selectedColor
           width := sampleCanvas.brushSize }] } :=
  (stopDrawing_spec sampleCanvas (by decide)).1 (by decide)

/-- Claim C9: updating content or drawings of an id that matches no
block, or deleting such an id, leaves the editor state (block list and
undo buffer) exactly unchanged; deleting a note id absent from the
collection leaves the app state exactly unchanged.  All four operations
are total functions, so none of them raises. -/
theorem missingId_noop (st : EditorState) (app : AppState) (id noteId content : String)
    (drawings : List DrawingPath)
    (hb : ∀ b ∈ st.blocks, b.id ≠ id) (hn : ∀ n ∈ app.notes, n.id ≠ noteId) :
    updateBlock st id content = st ∧
    updateBlockDrawings st id drawings = st ∧
    deleteBlock st id = st ∧
    handleDeleteNote app noteId = app := by
  have hnone : st.blocks.findIdx? (fun b => b.id == id) = none := by
    rw [List.findIdx?_eq_none_iff]
    intro b hbmem
    simpa using hb b hbmem
  have hfind : app.notes.find? (fun n => n.id == noteId) = none := by
    rw [List.find?_eq_none]
    intro n hnmem
    simpa using hn n hnmem
  refine ⟨?_, ?_, ?_, ?_⟩
  · have h1 : (st.blocks.map fun b =>
        if b.id == id then { b with content := content } else b) = st.blocks :=
      map_if_id _ _ _ (by intro b hbmem; simpa using hb b hbmem)
    show ({ st with blocks := _ } : EditorState) = st
    rw [h1]
  · have h1 : (st.blocks.map fun b =>
        if b.id == id then { b with drawings := some drawings } else b) = st.blocks :=
      map_if_id _ _ _ (by intro b hbmem; simpa using hb b hbmem)
    show ({ st with blocks := _ } : EditorState) = st
    rw [h1]
  · simp [deleteBlock, hnone]
  · simp [handleDeleteNote, hfind]

/-- Witness for `missingId_noop` at a concrete editor and app state. -/
theorem missingId_noop_witness :
    updateBlock sampleEditor "zz" "new" = sampleEditor ∧
    updateBlockDrawings sampleEditor "zz" [] = sampleEditor ∧
    deleteBlock sampleEditor "zz" = sampleEditor ∧
    handleDeleteNote sampleApp "zz" = sampleApp :=
  missingId_noop sampleEditor sampleApp "zz" "zz" "new" [] (by decide) (by decide)

/-- Folding drag-enter events over a state with a tracked source index
agrees with the spec's pure splice-move fold. -/
theorem dragEnter_foldl (targets : List Nat) :
    ∀ (st : EditorState) (i : Nat), st.dragItem = some i →
      (targets.foldl handleDragEnter st).blocks = (specDragFold st.blocks i targets).1 ∧
      (targets.foldl handleDragEnter st).dragItem = some (specDragFold st.blocks i targets).2 := by
  induction targets with
  | nil =>
    intro st i h
    exact ⟨rfl, by simpa [specDragFold] using h⟩
  | cons t ts ih =>
    intro st i h
    have hfold : specDragFold st.blocks i (t :: ts) =
        ts.foldl (fun st t => if st.2 = t then st else (spliceMove st.1 st.2 t, t))
          (if i = t then (st.blocks, i) else (spliceMove st.blocks i t, t)) := by
      simp [specDragFold]
    by_cases hit : i = t
    · have hstep : handleDragEnter st t = { st with dragOverItem := some t } := by
        rw [handleDragEnter.eq_def, h]
        simp [hit]
      have := ih { st with dragOverItem := some t } i (by simpa using h)
      rw [List.foldl_cons, hstep, hfold, if_pos hit]
      simpa [specDragFold] using this
    · have hstep : handleDragEnter st t =
          { st with dragOverItem := some t
                    blocks := spliceMove st.blocks i t
                    dragItem := some t } := by
        rw [handleDragEnter.eq_def, h]
        simp [hit]
      have := ih { st with dragOverItem := some t
                           blocks := spliceMove st.blocks i t
                           dragItem := some t } t rfl
      rw [List.foldl_cons, hstep, hfold, if_neg hit]
      simpa [specDragFold] using this

/-- Claim C4: a drag gesture that starts at source index `i` and passes
through the target indices in `targets` commits one splice-remove /
splice-insert move per drag-enter whose target differs from the tracked
source index (updating the tracked index to the target; an equal target
changes nothing), and the resulting block order is the left fold of
those moves over the target sequence. -/
theorem runDrag_spec (st : EditorState) (i : Nat) (targets : List Nat) :
    (runDrag st i targets).blocks = (specDragFold st.blocks i targets).1 ∧
    (runDrag st i targets).dragItem = some (specDragFold st.blocks i targets).2 :=
  dragEnter_foldl targets (handleDragStart st i) i rfl

/-- Filtering out a predicate that holds at exactly one position erases
exactly that position. -/
theorem filter_not_eq_eraseIdx {α : Type} :
    ∀ (l : List α) (p : α → Bool) (j : Nat) (hj : j < l.length),
      p (l.get ⟨j, hj⟩) = true →
      (∀ k (hk : k < l.length), k ≠ j → p (l.get ⟨k, hk⟩) = false) →
      l.filter (fun a => !p a) = l.eraseIdx j := by
  intro l
  induction l with
  | nil => intro p j hj; exact absurd hj (by simp)
  | cons a t ih =>
    intro p j hj hmatch huniq
    cases j with
    | zero =>
      have ha : p a = true := hmatch
      have ht : ∀ b ∈ t, (!p b) = true := by
        intro b hb
        obtain ⟨⟨k, hk⟩, rfl⟩ := List.mem_iff_get.mp hb
        have := huniq (k + 1)
          (by simp only [List.length_cons]; exact Nat.succ_lt_succ hk) (by simp)
        simpa using this
      simp only [List.eraseIdx_cons_zero, List.filter_cons, ha, Bool.not_true,
        Bool.false_eq_true, if_false]
      exact List.filter_eq_self.mpr ht
    | succ j =>
      have ha : p a = false := huniq 0 (by simp) (by simp)
      have hrec := ih p j (by simpa using Nat.lt_of_succ_lt_succ hj)
        hmatch
        (by
          intro k hk hkj
          exact huniq (k + 1) (by simpa using Nat.succ_lt_succ hk)
            (by simpa using hkj))
      simp only [List.eraseIdx_cons_succ, List.filter_cons, ha, Bool.not_false, if_true]
      exact congrArg (a :: ·) hrec

/-- Re-inserting the erased element at the erased position restores the
original list. -/
theorem insertIdx_get_eraseIdx {α : Type} :
    ∀ (l : List α) (j : Nat) (hj : j < l.length),
      (l.eraseIdx j).insertIdx j (l.get ⟨j, hj⟩) = l := by
  intro l
  induction l with
  | nil => intro j hj; exact absurd hj (by simp)
  | cons a t ih =>
    intro j hj
    cases j with
    | zero => simp
    | succ j =>
      have := ih j (Nat.lt_of_succ_lt_succ hj)
      simpa using this

/-- Claim C5: deleting the id of the block at position `j` (the only
position holding that id, per the unique-id invariant) removes exactly
that block and records the removed block with its original index in the
undo buffer; invoking undo with the buffer filled splice-inserts the
recorded block back at the recorded index and empties the buffer, so
that with no intervening edit the block list returns to the original. -/
theorem deleteBlock_restoreBlock_spec (st : EditorState) (id : String)
    (j : Nat) (hj : j < st.blocks.length)
    (hmatch : (st.blocks.get ⟨j, hj⟩).id = id)
    (huniq : ∀ k (hk : k < st.blocks.length), k ≠ j → (st.blocks.get ⟨k, hk⟩).id ≠ id) :
    deleteBlock st id = { st with
      blocks := st.blocks.eraseIdx j
      deletedBlock := some (st.blocks.get ⟨j, hj⟩, j) } ∧
    restoreBlock (deleteBlock st id) = { st with deletedBlock := none } := by
  have hfind : st.blocks.findIdx? (fun b => b.id == id) = some j := by
    rw [List.findIdx?_eq_some_iff_getElem]
    refine ⟨hj, by simpa using hmatch, ?_⟩
    intro k hk
    simpa using huniq k (Nat.lt_trans hk hj) (Nat.ne_of_lt hk)
  have hfilter : (st.blocks.filter fun b => !(b.id == id)) = st.blocks.eraseIdx j := by
    apply filter_not_eq_eraseIdx st.blocks (fun b => b.id == id) j hj
      (by simpa using hmatch)
    intro k hk hkj
    simpa using huniq k hk hkj
  have hdel : deleteBlock st id = { st with
      blocks := st.blocks.eraseIdx j
      deletedBlock := some (st.blocks.get ⟨j, hj⟩, j) } := by
    rw [deleteBlock.eq_def, hfind]
    simp only [List.getElem?_eq_getElem hj, Option.map_some', hfilter]
    rfl
  refine ⟨hdel, ?_⟩
  rw [hdel]
  have hlen : (st.blocks.eraseIdx j).length = st.blocks.length - 1 :=
    List.length_eraseIdx_of_lt hj
  have hmin : min j (st.blocks.eraseIdx j).length = j := by
    rw [hlen]; omega
  rw [restoreBlock.eq_def]
  simp only [spliceInsert, hmin]
  rw [insertIdx_get_eraseIdx st.blocks j hj]

/-- Witness for `deleteBlock_restoreBlock_spec` at a concrete editor
state: deleting block "b" then undoing restores the original list. -/
theorem deleteBlock_restoreBlock_spec_witness :
    deleteBlock sampleEditor "b" = { sampleEditor with
      blocks := sampleEditor.blocks.eraseIdx 1
      deletedBlock := some (sampleEditor.blocks.get ⟨1, by decide⟩, 1) } ∧
    restoreBlock (deleteBlock sampleEditor "b") = { sampleEditor with deletedBlock := none } :=
  deleteBlock_restoreBlock_spec sampleEditor "b" 1 (by decide) (by decide)
    (by decide)

/-- Claim C10: the save handler is a pure upsert.  Under the unique-id
invariant, if the note at position `j` carries the saved note's id, the
collection is the original with position `j` replaced by the saved note
(everything else unchanged in content and relative order); if no note
carries the id, the saved note is prepended and the rest is unchanged. -/
theorem handleSaveNote_upsert (prev : List Note) (n : Note)
    (hnd : (prev.map Note.id).Nodup) :
    (∀ j (hj : j < prev.length), (prev.get ⟨j, hj⟩).id = n.id →
      handleSaveNote prev n = prev.set j n) ∧
    ((∀ m ∈ prev, m.id ≠ n.id) → handleSaveNote prev n = n :: prev) := by
  constructor
  · intro j hj hid
    have hmem : prev.get ⟨j, hj⟩ ∈ prev := List.get_mem prev j hj
    have hfind : (prev.find? fun m => m.id == n.id).isSome := by
      cases hsome : prev.find? fun m => m.id == n.id with
      | some _ => rfl
      | none =>
        exact absurd (by simpa using hid) (List.find?_eq_none.mp hsome _ hmem)
    rw [handleSaveNote.eq_def]
    cases hsome : prev.find? fun m => m.id == n.id with
    | none => rw [hsome] at hfind; exact absurd hfind (by simp)
    | some _ =>
      apply List.ext_getElem (by simp)
      intro k h1 h2
      rw [List.getElem_map, List.getElem_set]
      by_cases hkj : j = k
      · subst hkj
        rw [if_pos rfl, if_pos]
        simpa [List.get_eq_getElem] using hid
      · rw [if_neg hkj, if_neg]
        simp only [beq_iff_eq]
        intro hcontra
        apply hkj
        have hk : k < prev.length := by simpa using h1
        have h1' : k < (prev.map Note.id).length := by simpa using hk
        have h2' : j < (prev.map Note.id).length := by simpa using hj
        have : (prev.map Note.id)[k] = (prev.map Note.id)[j] := by
          rw [List.getElem_map, List.getElem_map]
          rw [hcontra]
          simpa [List.get_eq_getElem] using hid.symm
        exact (hnd.getElem_inj_iff.mp this).symm
  · intro habs
    have hfind : (prev.find? fun m => m.id == n.id) = none :=
      List.find?_eq_none.mpr (by intro m hm; simpa using habs m hm)
    rw [handleSaveNote.eq_def, hfind]

/-- Witness for `handleSaveNote_upsert`: replacing the existing note
"n1" and prepending a note with a fresh id. -/
theorem handleSaveNote_upsert_witness :
    handleSaveNote [sampleNoteA, sampleNoteH] { sampleNoteA with title := "New" } =
      [sampleNoteA, sampleNoteH].set 0 { sampleNoteA with title := "New" } ∧
    handleSaveNote [sampleNoteH] sampleNoteA = sampleNoteA :: [sampleNoteH] :=
  ⟨(handleSaveNote_upsert [sampleNoteA, sampleNoteH] { sampleNoteA with title := "New" }
      (by decide)).1 0 (by decide) (by decide),
   (handleSaveNote_upsert [sampleNoteH] sampleNoteA (by decide)).2 (by decide)⟩

/-- The auto-save commit of an editor opened on a persisted note (one
whose id is a nonempty string and whose creation timestamp is nonzero,
as every committed note's are). -/
theorem autoSaveCommit_some (n : Note) (title : String) (blocks : List Block)
    (isPinned isHidden : Bool) (th : Theme) (now : Int) (freshId : String)
    (h1 : n.id ≠ "") (h2 : n.createdAt ≠ 0) :
    autoSaveCommit (some n) title blocks isPinned isHidden th now freshId =
      some { id := n.id, title := title, createdAt := n.createdAt, updatedAt := now,
             blocks := blocks, isPinned := isPinned, isHidden := some isHidden,
             theme := some th } := by
  by_cases ht : title = "" <;> simp [autoSaveCommit, h1, h2, ht]

/-- Claim C8: committing an already-persisted note keeps its id and
`createdAt`, takes the editor's current block list, and refreshes only
`updatedAt`; a first save stamps `createdAt` with the commit time and a
freshly generated id; hence committing an unchanged editor state twice
changes `updatedAt` and nothing else. -/
theorem autoSaveCommit_spec (n : Note) (title : String) (blocks : List Block)
    (isPinned isHidden : Bool) (th : Theme) (now now₂ : Int) (freshId freshId₂ : String) :
    (n.id ≠ "" → n.createdAt ≠ 0 →
      autoSaveCommit (some n) title blocks isPinned isHidden th now freshId =
        some { id := n.id, title := title, createdAt := n.createdAt, updatedAt := now,
               blocks := blocks, isPinned := isPinned, isHidden := some isHidden,
               theme := some th }) ∧
    ((blocks ≠ [] ∨ title ≠ "") →
      autoSaveCommit none title blocks isPinned isHidden th now freshId =
        some { id := freshId, title := title, createdAt := now, updatedAt := now,
               blocks := blocks, isPinned := isPinned, isHidden := some isHidden,
               theme := some th }) ∧
    (∀ m : Note, n.id ≠ "" → n.createdAt ≠ 0 →
      autoSaveCommit (some n) title blocks isPinned isHidden th now freshId = some m →
      autoSaveCommit (some m) title blocks isPinned isHidden th now₂ freshId₂ =
        some { m with updatedAt := now₂ }) := by
  refine ⟨fun h1 h2 => autoSaveCommit_some n title blocks isPinned isHidden th now freshId h1 h2,
    fun hg => ?_, fun m h1 h2 hm => ?_⟩
  · rw [autoSaveCommit.eq_def]
    rw [if_neg (by
      rcases hg with hg | hg
      · simp [List.length_eq_zero, hg]
      · simp [hg])]
    by_cases ht : title = "" <;> simp [ht]
  · rw [autoSaveCommit_some n title blocks isPinned isHidden th now freshId h1 h2] at hm
    have hmeq := Option.some.inj hm
    subst hmeq
    exact autoSaveCommit_some _ title blocks isPinned isHidden th now₂ freshId₂ h1 h2

/-- Witness for `autoSaveCommit_spec` at a concrete persisted note. -/
theorem autoSaveCommit_spec_witness :
    autoSaveCommit (some sampleNoteA) "Trip" [sampleBlockA] false false Theme.dark 10 "f1" =
      some { id := sampleNoteA.id, title := "Trip", createdAt := sampleNoteA.createdAt,
             updatedAt := 10, blocks := [sampleBlockA], isPinned := false,
             isHidden := some false, theme := some Theme.dark } :=
  (autoSaveCommit_spec sampleNoteA "Trip" [sampleBlockA] false false Theme.dark 10 11
    "f1" "f2").1 (by decide) (by decide)

/-- Trimming the empty string yields the empty string. -/
theorem trim_empty : "".trim = "" := by
  simp [String.trim, Substring.trim, String.toSubstring, Substring.toString,
    Substring.takeWhileAux, Substring.takeRightWhileAux, String.extract]

/-- The filter predicate of the Home view agrees with the claim's
retention rule. -/
theorem homeFilterPred_iff (sh : Bool) (q : String) (n : Note) :
    homeFilterPred sh q n = true ↔ specKeep sh q n := by
  have hvis : (if sh then truthy n.isHidden else !(truthy n.isHidden)) = true ↔
      (if sh then n.isHidden = some true else n.isHidden ≠ some true) := by
    cases sh <;> rcases n.isHidden with _ | b <;> simp [truthy]
  by_cases hq : q.trim = ""
  · simp only [homeFilterPred, specKeep]
    simp [hvis, hq]
  · have hq' : (q.trim == "") = false := by simpa using hq
    simp only [homeFilterPred, specKeep, hq', Bool.false_eq_true, if_false,
      Bool.and_eq_true, hvis, strIncludes]
    simp [hq, List.any_eq_true, and_assoc]

/-- Claim C2: the list view retains a note iff its hidden flag matches
the visibility mode (an unset flag counting as non-hidden) and the
query is blank or the lowercased query occurs in the lowercased title
or in the lowercased content of some text block; with a blank query the
two modes partition the collection into disjoint, exhaustive sets. -/
theorem filteredNotes_spec (notes : List Note) (sh : Bool) (q : String) :
    (∀ n ∈ notes, (n ∈ filteredNotes notes sh q ↔ specKeep sh q n)) ∧
    (q.trim = "" → ∀ n : Note,
      ((n ∈ notes) ↔ (n ∈ filteredNotes notes false q ∨ n ∈ filteredNotes notes true q)) ∧
      ¬(n ∈ filteredNotes notes false q ∧ n ∈ filteredNotes notes true q)) := by
  constructor
  · intro n hn
    rw [filteredNotes, List.mem_filter]
    rw [homeFilterPred_iff]
    exact ⟨fun h => h.2, fun h => ⟨hn, h⟩⟩
  · intro hq n
    have hq' : (q.trim == "") = true := by simpa using hq
    have hpred : ∀ (s : Bool) (m : Note), homeFilterPred s q m =
        (if s then truthy m.isHidden else !(truthy m.isHidden)) := by
      intro s m
      simp [homeFilterPred, hq']
    constructor
    · rw [filteredNotes, filteredNotes, List.mem_filter, List.mem_filter,
        hpred, hpred]
      cases h : truthy n.isHidden <;> simp
    · rw [filteredNotes, filteredNotes, List.mem_filter, List.mem_filter,
        hpred, hpred]
      cases h : truthy n.isHidden <;> simp

/-- Witness for `filteredNotes_spec` at a concrete collection: the
default view keeps the visible note, and with a blank query the two
views partition the two-note collection. -/
theorem filteredNotes_spec_witness :
    (sampleNoteA ∈ filteredNotes [sampleNoteA, sampleNoteH] false "" ↔
      specKeep false "" sampleNoteA) ∧
    ((sampleNoteA ∈ [sampleNoteA, sampleNoteH]) ↔
      (sampleNoteA ∈ filteredNotes [sampleNoteA, sampleNoteH] false "" ∨
        sampleNoteA ∈ filteredNotes [sampleNoteA, sampleNoteH] true "")) ∧
    ¬(sampleNoteH ∈ filteredNotes [sampleNoteA, sampleNoteH] false "" ∧
      sampleNoteH ∈ filteredNotes [sampleNoteA, sampleNoteH] true "") :=
  ⟨(filteredNotes_spec [sampleNoteA, sampleNoteH] false "").1 sampleNoteA (by simp),
   ((filteredNotes_spec [sampleNoteA, sampleNoteH] false "").2 trim_empty sampleNoteA).1,
   ((filteredNotes_spec [sampleNoteA, sampleNoteH] false "").2 trim_empty sampleNoteH).2⟩

/-- The comparator-induced order is transitive. -/
theorem noteLE_trans : ∀ (a b c : Note), noteLE a b → noteLE b c → noteLE a c := by
  intro a b c hab hbc
  simp only [noteLE, noteCmp, decide_eq_true_eq] at *
  cases ha : a.isPinned <;> cases hb : b.isPinned <;> cases hc : c.isPinned <;>
    simp_all <;> omega

/-- The comparator-induced order is total. -/
theorem noteLE_total : ∀ (a b : Note), noteLE a b || noteLE b a := by
  intro a b
  simp only [noteLE, noteCmp, Bool.or_eq_true, decide_eq_true_eq]
  cases ha : a.isPinned <;> cases hb : b.isPinned <;> simp_all <;> omega

/-- What the comparator order means: pinned notes come first, and with
equal pin state the later-updated note comes first. -/
theorem noteLE_imp (a b : Note) (h : noteLE a b = true) :
    (b.isPinned = true → a.isPinned = true) ∧
    (a.isPinned = b.isPinned → b.updatedAt ≤ a.updatedAt) := by
  simp only [noteLE, noteCmp, decide_eq_true_eq] at h
  cases ha : a.isPinned <;> cases hb : b.isPinned <;> simp_all

/-- A stable sort leaves the elements of any tie class (any set of
elements pairwise ordered both ways) in their input order. -/
theorem mergeSort_filter_of_tied {α : Type} (le : α → α → Bool)
    (htrans : ∀ (a b c : α), le a b → le b c → le a c)
    (htotal : ∀ (a b : α), le a b || le b a)
    (p : α → Bool) (hp : ∀ a b, p a = true → p b = true → le a b = true)
    (l : List α) :
    (l.mergeSort le).filter p = l.filter p := by
  have hpw : (l.filter p).Pairwise (fun a b => le a b) := by
    apply List.pairwise_of_forall_mem_list
    intro a ha b hb
    exact hp a b (List.of_mem_filter ha) (List.of_mem_filter hb)
  have hsub : List.Sublist (l.filter p) (l.mergeSort le) :=
    List.sublist_mergeSort htrans htotal hpw (List.filter_sublist l)
  have hsub2 : List.Sublist (l.filter p) ((l.mergeSort le).filter p) := by
    have h1 := hsub.filter p
    rwa [List.filter_eq_self.mpr (fun a ha => List.of_mem_filter ha)] at h1
  have hlen : ((l.mergeSort le).filter p).length = (l.filter p).length :=
    ((List.mergeSort_perm l le).filter p).length_eq
  exact (hsub2.eq_of_length hlen.symm).symm

/-- Claim C3: the list view's sort permutes the input, places every
pinned note before every unpinned note, orders equal pin state by
descending `updatedAt`, and preserves the input order of notes that tie
on both pin state and `updatedAt` (stability) — in particular pinned
notes are stable among themselves. -/
theorem sortNotes_spec (l : List Note) :
    List.Perm (sortNotes l) l ∧
    (sortNotes l).Pairwise (fun a b =>
      (b.isPinned = true → a.isPinned = true) ∧
      (a.isPinned = b.isPinned → b.updatedAt ≤ a.updatedAt)) ∧
    ∀ (pin : Bool) (t : Int),
      (sortNotes l).filter (fun n => n.isPinned == pin && n.updatedAt == t) =
        l.filter (fun n => n.isPinned == pin && n.updatedAt == t) := by
  refine ⟨List.mergeSort_perm l noteLE, ?_, ?_⟩
  · have hs := List.sorted_mergeSort noteLE_trans noteLE_total l
    exact hs.imp (fun hab => noteLE_imp _ _ hab)
  · intro pin t
    apply mergeSort_filter_of_tied noteLE noteLE_trans noteLE_total
    intro a b ha hb
    simp only [Bool.and_eq_true, beq_iff_eq] at ha hb
    simp only [noteLE, noteCmp, ha.1, ha.2, hb.1, hb.2, decide_eq_true_eq]
    simp

/-- A path that either has fewer than two points or does not cover a
pixel leaves that pixel unchanged; replaying any list of such paths
leaves it unchanged. -/
theorem foldl_paintStep_of_unaffected {Pixel : Type} (covers : DrawingPath → Pixel → Bool)
    (px : Pixel) :
    ∀ (qs : List DrawingPath) (canvas : Pixel → Option String),
      (∀ q ∈ qs, ¬(2 ≤ q.points.length ∧ covers q px = true)) →
      (qs.foldl (paintStep covers) canvas) px = canvas px := by
  intro qs
  induction qs with
  | nil => intro canvas h; rfl
  | cons q qs ih =>
    intro canvas h
    rw [List.foldl_cons]
    rw [ih _ (fun r hr => h r (List.mem_cons_of_mem q hr))]
    have hq := h q (List.mem_cons_self q qs)
    by_cases h2 : 2 ≤ q.points.length
    · have hcov : covers q px = false := by
        cases hc : covers q px
        · rfl
        · exact absurd ⟨h2, hc⟩ hq
      simp [paintStep, hcov]
    · simp [paintStep, Nat.lt_of_not_le h2]

/-- Claim C7: the renderer replays paths strictly in list order
(skipping paths with fewer than two points), compositing non-eraser
paths source-over and eraser-sentinel paths destination-out; hence an
eraser path turns exactly the pixels it covers transparent while pixels
it does not cover keep the value produced by the preceding paths (it
erases only what was painted before it), and a pen path drawn after an
eraser path shows its own color on every pixel it covers, regardless of
overlap with the eraser. -/
theorem renderCanvas_spec {Pixel : Type} (covers : DrawingPath → Pixel → Bool) :
    (∀ (ps : List DrawingPath) (c : DrawingPath) (px : Pixel),
      renderCanvas covers (ps ++ [c]) px = paintStep covers (renderCanvas covers ps) c px) ∧
    (∀ (ps qs : List DrawingPath) (b : DrawingPath) (px : Pixel),
      b.color = "eraser" → 2 ≤ b.points.length →
      (∀ q ∈ qs, ¬(2 ≤ q.points.length ∧ covers q px = true)) →
      renderCanvas covers (ps ++ b :: qs) px =
        if covers b px then none else renderCanvas covers ps px) ∧
    (∀ (ps qs : List DrawingPath) (b c : DrawingPath) (px : Pixel),
      b.color = "eraser" → c.color ≠ "eraser" → 2 ≤ c.points.length → covers c px = true →
      renderCanvas covers (ps ++ b :: (qs ++ [c])) px = some c.color) := by
  refine ⟨?_, ?_, ?_⟩
  · intro ps c px
    rw [renderCanvas, renderCanvas, List.foldl_append]
    rfl
  · intro ps qs b px hb h2 hqs
    rw [renderCanvas, List.foldl_append, List.foldl_cons]
    rw [foldl_paintStep_of_unaffected covers px qs _ hqs]
    have hlt : ¬(b.points.length < 2) := by omega
    have hbe : (b.color == "eraser") = true := by simp [hb]
    simp [paintStep, hlt, hbe, renderCanvas]
  · intro ps qs b c px hb hc h2 hcov
    have happ : ps ++ b :: (qs ++ [c]) = (ps ++ b :: qs) ++ [c] := by simp
    rw [happ, renderCanvas, List.foldl_append, List.foldl_cons, List.foldl_nil]
    have hlt : ¬(c.points.length < 2) := by omega
    have hce : (c.color == "eraser") = false := by simp [hc]
    simp [paintStep, hlt, hce, hcov]

/-- Witness for `renderCanvas_spec` on a one-pixel canvas: pen A,
eraser B covering everything, then pen C: C is fully visible. -/
theorem renderCanvas_spec_witness :
    renderCanvas (fun _ _ => true)
      ([{ points := [pt0, pt1], color := "red", width := 3 }] ++
        { points := [pt0, pt1], color := "eraser", width := 3 } ::
        ([] ++ [{ points := [pt0, pt1], color := "blue", width := 3 }])) () =
      some "blue" :=
  (renderCanvas_spec (fun _ _ => true)).2.2
    [{ points := [pt0, pt1], color := "red", width := 3 }] []
    { points := [pt0, pt1], color := "eraser", width := 3 }
    { points := [pt0, pt1], color := "blue", width := 3 } () rfl (by decide)
    (by decide) rfl

/-- Reading back an encoded list element-by-element succeeds when each
element reads back. -/
theorem decodeList_encode {α : Type} (enc : α → Json) (dec : Json → Option α)
    (h : ∀ a, dec (enc a) = some a) :
    ∀ l : List α, decodeList dec (l.map enc) = some l := by
  intro l
  induction l with
  | nil => rfl
  | cons a t ih => simp [decodeList, h, ih]

/-- A `Point` reads back from its encoding. -/
theorem decodePoint_encodePoint (p : Point) : decodePoint (encodePoint p) = some p := by
  cases p
  rfl

/-- A list of points reads back from its encoding. -/
theorem decodeList_point (ps : List Point) :
    decodeList decodePoint (ps.map encodePoint) = some ps :=
  decodeList_encode _ _ decodePoint_encodePoint ps

/-- A `DrawingPath` reads back from its encoding. -/
theorem decodePath_encodePath (p : DrawingPath) : decodePath (encodePath p) = some p := by
  cases p
  simp [encodePath, decodePath, getField, decStr, decNum, List.lookup, decodeList_point]

/-- A list of paths reads back from its encoding. -/
theorem decodeList_path (ps : List DrawingPath) :
    decodeList decodePath (ps.map encodePath) = some ps :=
  decodeList_encode _ _ decodePath_encodePath ps

/-- A `Block` reads back from its encoding, whichever optional fields
are present. -/
theorem decodeBlock_encodeBlock (b : Block) : decodeBlock (encodeBlock b) = some b := by
  rcases b with ⟨id, ty, content, w, hh, ds⟩
  rcases w with _ | w <;> rcases hh with _ | hh <;> rcases ds with _ | ds <;> cases ty <;>
    simp [encodeBlock, decodeBlock, getField, getOptField, optField, blockTypeStr,
      decBlockType, decStr, decNum, List.lookup, decodeList_path]

/-- A list of blocks reads back from its encoding. -/
theorem decodeList_block (bs : List Block) :
    decodeList decodeBlock (bs.map encodeBlock) = some bs :=
  decodeList_encode _ _ decodeBlock_encodeBlock bs

/-- A `Note` reads back from its encoding, whichever optional fields
are present. -/
theorem decodeNote_encodeNote (n : Note) : decodeNote (encodeNote n) = some n := by
  rcases n with ⟨id, title, ca, ua, blocks, pin, hid, th⟩
  rcases hid with _ | hid <;> rcases th with _ | th <;> try cases th
  all_goals
    simp [encodeNote, decodeNote, getField, getOptField, optField, themeStr, decTheme,
      decStr, decNum, decBool, List.lookup, decodeList_block]

/-- A list of notes reads back from its encoding. -/
theorem decodeList_note (ns : List Note) :
    decodeList decodeNote (ns.map encodeNote) = some ns :=
  decodeList_encode _ _ decodeNote_encodeNote ns

/-- Claim C1: serialising a note collection to its JSON document (as
the save path does) and reading it back (as the load path does) yields
a collection equal field-for-field to the original, for every
collection including the empty one. -/
theorem json_roundtrip (ns : List Note) : decodeNotes (encodeNotes ns) = some ns := by
  simp [encodeNotes, decodeNotes, decodeList_note]

end FrameNotes
